import Mathlib

/-!
# Verification of the environment/service reconciliation subsystem

Shallow embedding, in Lean 4, of the core logic of the `create-hdai-app-nextjs`
scaffolding CLI: version comparison, env-value classification, credential
parsing, env-file upserts, the promote-to-production rewrites, the auth
connectivity probe, and the dependency-remediation orchestration.

Strings from the JavaScript source are modelled as `List Char` (the character
sequence of the string); JavaScript string primitives (`trim`, `split`,
`startsWith`, `includes`, regular-expression matching) are translated into
explicit character-list functions.  Subprocess and HTTP outcomes are modelled
as `Except`/structure values, and the filesystem touched by the connect
operations as an explicit state record.
-/

/-! ## Character-list string primitives (models of the JS string API) -/

/-- Model of JavaScript `String.prototype.trim`: drop leading and trailing
whitespace characters. -/
def jsTrim (l : List Char) : List Char :=
  ((l.dropWhile Char.isWhitespace).reverse.dropWhile Char.isWhitespace).reverse

/-- Split a character list at every occurrence of the separator character,
as JavaScript `String.prototype.split` with a one-character separator:
`n` separators yield `n+1` (possibly empty) fields. -/
def splitOnChar (sep : Char) : List Char → List (List Char)
  | [] => [[]]
  | c :: cs =>
    if c = sep then [] :: splitOnChar sep cs
    else
      match splitOnChar sep cs with
      | [] => [[c]]
      | h :: t => (c :: h) :: t

/-- Inverse of `splitOnChar '\n'`: re-join fields with the separator. -/
def joinNl : List (List Char) → List Char
  | [] => []
  | [l] => l
  | l :: ls => l ++ '\n' :: joinNl ls

/-- Lines of an env-file content string (split at every newline). -/
def splitNl (l : List Char) : List (List Char) := splitOnChar '\n' l

/-- Bool-valued substring test, as JavaScript `String.prototype.includes`. -/
def hasInfix (pat : List Char) : List Char → Bool
  | [] => pat.isEmpty
  | s@(_ :: rest) => pat.isPrefixOf s || hasInfix pat rest

/-! ## C1: version comparison (`compareVersions`, utils) -/

/-- Value of one dot-component under JavaScript coercion `Number(c) || 0` as
used by `compareVersions`.  For a decimal numeral this is its value; any
component that is not a plain decimal numeral collapses to `0` (in JS via
`NaN || 0`); the claims only quantify over decimal-numeral components, where
this model is exact. -/
def jsNum (c : List Char) : Nat :=
  if c ≠ [] ∧ c.all Char.isDigit then
    c.foldl (fun acc d => acc * 10 + (d.toNat - '0'.toNat)) 0
  else 0

/-- Tail of the comparison loop once the left version has run out of
components: every remaining left component reads as `0`. -/
def compareLoopNilLeft : List Nat → Bool
  | [] => true
  | b :: bs => if 0 < b then false else compareLoopNilLeft bs

/-- The comparison loop of `compareVersions`: indices `0 ≤ i < max len`,
missing components read as `0` (`v[i] || 0`); first strictly greater component
returns `true`, first strictly smaller returns `false`; exhaustion of both
lists returns `true` (equal versions satisfy "≥"). -/
def compareLoop : List Nat → List Nat → Bool
  | [], bs => compareLoopNilLeft bs
  | a :: as, [] => if a > 0 then true else compareLoop as []
  | a :: as, b :: bs =>
    if a > b then true else if a < b then false else compareLoop as bs

/-- `compareVersions(version, minVersion)` from `utils`: split both strings on
`'.'`, coerce each component with `Number(x) || 0`, and run the left-to-right
comparison loop. -/
def compareVersions (version minVersion : String) : Bool :=
  compareLoop ((splitOnChar '.' version.data).map jsNum)
    ((splitOnChar '.' minVersion.data).map jsNum)

/-- Zero-pad a component list on the right to length `n` (the spec's
"missing trailing components treated as 0"). -/
def padTo (n : Nat) (l : List Nat) : List Nat :=
  l ++ List.replicate (n - l.length) 0

/-- Spec-side order ("comparing components left to right, the first unequal
component deciding, exhaustion of both meaning equal"): lexicographic ≥ on
equal-length component lists. -/
def lexGe : List Nat → List Nat → Bool
  | [], _ => true
  | _ :: _, [] => true
  | a :: as, b :: bs => if b < a then true else if a < b then false else lexGe as bs

/-- Spec-side version comparison: pad both component lists with trailing
zeros to a common length, then compare lexicographically. -/
def specVersionGe (v1 v2 : List Nat) : Bool :=
  lexGe (padTo (max v1.length v2.length) v1) (padTo (max v1.length v2.length) v2)

theorem compareLoop_nil_right (as : List Nat) :
    compareLoop as [] = lexGe as (List.replicate as.length 0) := by
  induction as with
  | nil => rfl
  | cons a as ih =>
    simp [compareLoop, List.replicate_succ, lexGe, ih, Nat.not_lt_zero]

theorem compareLoop_nil_left (bs : List Nat) :
    compareLoop [] bs = lexGe (List.replicate bs.length 0) bs := by
  induction bs with
  | nil => rfl
  | cons b bs ih =>
    simp [compareLoop, compareLoopNilLeft, List.replicate_succ, lexGe, ← ih,
      Nat.not_lt_zero]

theorem compareLoop_eq_specVersionGe (v1 v2 : List Nat) :
    compareLoop v1 v2 = specVersionGe v1 v2 := by
  induction v1 generalizing v2 with
  | nil =>
    cases v2 with
    | nil => rfl
    | cons b bs =>
      simp [specVersionGe, padTo, compareLoop_nil_left]
  | cons a as ih =>
    cases v2 with
    | nil =>
      simp [specVersionGe, padTo, compareLoop_nil_right]
    | cons b bs =>
      simp only [compareLoop, specVersionGe, padTo, List.length_cons,
        Nat.succ_max_succ, List.cons_append, lexGe, Nat.succ_sub_succ]
      rw [ih bs]
      simp [specVersionGe, padTo]

/-- C1: for version strings whose dot-components are decimal numerals,
`compareVersions A B` agrees with the spec-side comparison: pad the shorter
component list with trailing zeros, compare left to right, first unequal
component decides, exhaustion of both means equal (hence "≥" holds). -/
theorem compareVersions_spec (A B : String)
    (_hA : ∀ c ∈ splitOnChar '.' A.data, c ≠ [] ∧ c.all Char.isDigit)
    (_hB : ∀ c ∈ splitOnChar '.' B.data, c ≠ [] ∧ c.all Char.isDigit) :
    compareVersions A B =
      specVersionGe ((splitOnChar '.' A.data).map jsNum)
        ((splitOnChar '.' B.data).map jsNum) :=
  compareLoop_eq_specVersionGe _ _

/-- Witness for `compareVersions_spec` at the spec's own examples:
`compareVersions "8.0" "8.0.0"` is true and `compareVersions "7.9.9" "8.0.0"`
is false. -/
theorem compareVersions_spec_witness :
    (∀ c ∈ splitOnChar '.' "8.0".data, c ≠ [] ∧ c.all Char.isDigit) ∧
    (∀ c ∈ splitOnChar '.' "8.0.0".data, c ≠ [] ∧ c.all Char.isDigit) ∧
    compareVersions "8.0" "8.0.0" =
      specVersionGe ((splitOnChar '.' "8.0".data).map jsNum)
        ((splitOnChar '.' "8.0.0".data).map jsNum) ∧
    compareVersions "8.0" "8.0.0" = true ∧
    compareVersions "7.9.9" "8.0.0" = false :=
  ⟨by decide, by decide,
    compareVersions_spec "8.0" "8.0.0" (by decide) (by decide),
    by decide, by decide⟩

/-! ## C2: env-value classification (`isEnvValueConfigured`, setup) -/

/-- The two categories of recognized environment variables. -/
inductive EnvVarType where
  | database
  | auth
deriving DecidableEq

/-- The fixed placeholder substrings per category, from `isEnvValueConfigured`
in `setup.ts`. -/
def placeholderPatterns : EnvVarType → List (List Char)
  | .database =>
    ["your-production-database-url".data, "your-production".data,
      "your-local-anon-key".data]
  | .auth =>
    ["your-supabase-url".data, "your-supabase-anon-key".data,
      "your-supabase".data, "your-local-anon-key".data]

/-- `isEnvValueConfigured(value, type)` from `setup.ts`: empty values and
`#`-comments are not configured; an inline `#`-comment is stripped (everything
from the first `#` onward, the rest re-trimmed); the remainder must be
non-empty and contain none of the category's placeholder substrings. -/
def isEnvValueConfigured (value : List Char) (ty : EnvVarType) : Bool :=
  if value = [] then false
  else
    let trimmed := jsTrim value
    if ['#'].isPrefixOf trimmed then false
    else
      let valueWithoutComment :=
        if '#' ∈ trimmed then jsTrim (trimmed.takeWhile (fun c => c ≠ '#'))
        else trimmed
      if valueWithoutComment = [] then false
      else if (placeholderPatterns ty).any
          (fun p => hasInfix p valueWithoutComment) then false
      else decide (0 < valueWithoutComment.length)

/-- Spec-side classification, following the claim's words: after trimming,
reject values that start with `#`; strip everything from the first `#` onward
(trimming the surrounding whitespace of the remainder); the value is
configured iff the remainder is non-empty and contains none of the fixed
placeholder substrings of the category. -/
def specConfigured (value : List Char) (ty : EnvVarType) : Bool :=
  let t := jsTrim value
  if ['#'].isPrefixOf t then false
  else
    let r := jsTrim (t.takeWhile (fun c => c ≠ '#'))
    decide (r ≠ []) && !(placeholderPatterns ty).any (fun p => hasInfix p r)

theorem dropWhile_dropWhile (p : Char → Bool) (l : List Char) :
    (l.dropWhile p).dropWhile p = l.dropWhile p := by
  induction l with
  | nil => rfl
  | cons c cs ih =>
    by_cases h : p c <;> simp [List.dropWhile_cons, h, ih]

theorem dropWhile_head_not (p : Char → Bool) (l : List Char) (a : Char)
    (t : List Char) (h : l.dropWhile p = a :: t) : p a = false := by
  induction l with
  | nil => simp [List.dropWhile] at h
  | cons c cs ih =>
    by_cases hc : p c
    · exact ih (by simpa [List.dropWhile_cons, hc] using h)
    · rw [List.dropWhile_cons, if_neg (by simp [hc])] at h
      cases h
      simpa using hc

theorem jsTrim_idem (l : List Char) : jsTrim (jsTrim l) = jsTrim l := by
  unfold jsTrim
  set y := l.dropWhile Char.isWhitespace with hy
  set z := y.reverse.dropWhile Char.isWhitespace with hz
  have hzsuf : z <:+ y.reverse := hz ▸ List.dropWhile_suffix _
  have hpre : z.reverse <+: y := by
    have h2 := List.reverse_prefix.mpr hzsuf
    simpa using h2
  have hstep1 : z.reverse.dropWhile Char.isWhitespace = z.reverse := by
    cases hc : z.reverse with
    | nil => simp
    | cons a u =>
      obtain ⟨t, ht⟩ := hpre
      rw [hc] at ht
      have hhead : Char.isWhitespace a = false := by
        apply dropWhile_head_not Char.isWhitespace l a (u ++ t)
        rw [← hy, ← ht]
        exact List.cons_append a u t
      rw [List.dropWhile_cons, hhead]
      simp
  rw [hstep1, List.reverse_reverse, hz, dropWhile_dropWhile]

theorem takeWhile_eq_self_of_forall (p : Char → Bool) (l : List Char)
    (h : ∀ c ∈ l, p c = true) : l.takeWhile p = l := by
  induction l with
  | nil => rfl
  | cons c cs ih =>
    have hc' : p c = true := h c (by simp)
    have ih' : cs.takeWhile p = cs := ih fun x hx => h x (by simp [hx])
    simp [List.takeWhile_cons, hc', ih']

theorem isEnvValueConfigured_eq_spec (v : List Char) (ty : EnvVarType) :
    isEnvValueConfigured v ty = specConfigured v ty := by
  unfold isEnvValueConfigured specConfigured
  by_cases hv : v = []
  · subst hv; rfl
  · rw [if_neg hv]
    by_cases hsh : (['#'].isPrefixOf (jsTrim v)) = true
    · simp [hsh]
    · simp only [hsh, Bool.false_eq_true, if_false]
      by_cases hc : '#' ∈ jsTrim v
      · simp only [hc, if_true]
        set r := jsTrim ((jsTrim v).takeWhile (fun c => c ≠ '#')) with hr
        by_cases hre : r = []
        · simp [hre]
        · have hlen : 0 < r.length := List.length_pos.mpr hre
          by_cases ha :
              ((placeholderPatterns ty).any (fun p => hasInfix p r)) = true
          · simp [hre, ha]
          · simp [hre, ha, hlen]
      · simp only [hc, if_false]
        have htw : (jsTrim v).takeWhile (fun c => c ≠ '#') = jsTrim v := by
          apply takeWhile_eq_self_of_forall
          intro c hcm
          simp only [decide_eq_true_eq]
          intro hceq
          exact hc (hceq ▸ hcm)
        rw [htw, jsTrim_idem]
        by_cases hre : jsTrim v = []
        · simp [hre]
        · have hlen : 0 < (jsTrim v).length := List.length_pos.mpr hre
          by_cases ha : ((placeholderPatterns ty).any
              (fun p => hasInfix p (jsTrim v))) = true
          · simp [hre, ha]
          · simp [hre, ha, hlen]

/-- C2: the configured-value predicate agrees everywhere with the spec-side
classification (trim; reject leading-`#` comments; strip the inline
`#`-comment; require a non-empty remainder free of the category's placeholder
substrings), and takes the claimed values on the four spec examples. -/
theorem isEnvValueConfigured_spec :
    (∀ (v : List Char) (ty : EnvVarType),
        isEnvValueConfigured v ty = specConfigured v ty) ∧
    isEnvValueConfigured "your-production-database-url".data .database = false ∧
    isEnvValueConfigured "postgresql://u:p@h:5432/d".data .database = true ∧
    isEnvValueConfigured "# postgresql://u:p@h:5432/d".data .database = false ∧
    isEnvValueConfigured "postgresql://u:p@h/d #todo".data .database = true :=
  ⟨isEnvValueConfigured_eq_spec, by decide, by decide, by decide, by decide⟩

/-! ## C3: credential fetcher (`getSupabaseLocalCredentials`, utils) -/

/-- Structured credentials extracted from the `supabase status` output. -/
structure SupabaseCredentials where
  apiUrl : List Char
  anonKey : List Char
  dbUrl : List Char
deriving DecidableEq

/-- Backtracking step of matching `\s*(.+)` when only whitespace follows the
label: the greedy `\s*` gives back just enough for `.` (which cannot match a
newline) to consume one character, so the capture is the last
non-newline whitespace character, when one exists. -/
def backtrackCapture (w : List Char) : Option (List Char) :=
  match w.reverse.dropWhile (fun c => c = '\n') with
  | [] => none
  | c :: _ => some [c]

/-- Matching `\s*(.+)` against the text following a label occurrence: skip
the (greedy) whitespace run; if a character remains, the capture runs from it
to the end of its line; otherwise backtrack into the whitespace run. -/
def captureFrom (s : List Char) : Option (List Char) :=
  let r := s.dropWhile Char.isWhitespace
  if r = [] then backtrackCapture s
  else some (r.takeWhile (fun c => c ≠ '\n'))

/-- JavaScript `text.match(/LABEL\s*(.+)/)`: scan positions left to right;
at the first position where the literal label matches and `\s*(.+)` succeeds
on the rest, return the capture group. -/
def searchField (label : List Char) : List Char → Option (List Char)
  | [] => none
  | c :: rest =>
    if label.isPrefixOf (c :: rest) then
      match captureFrom ((c :: rest).drop label.length) with
      | some cap => some cap
      | none => searchField label rest
    else searchField label rest

/-- The three field labels extracted from the status output. -/
def apiUrlLabel : List Char := "API URL:".data

/-- Label of the anon-key field. -/
def anonKeyLabel : List Char := "anon key:".data

/-- Label of the database-URL field. -/
def dbUrlLabel : List Char := "DB URL:".data

/-- `getSupabaseLocalCredentials` from `utils`: the status subprocess either
throws (modelled `Except.error`) or yields its stdout text; the three labeled
fields are regex-extracted and the trimmed triple is returned only when all
three match. -/
def getSupabaseLocalCredentials (status : Except Unit (List Char)) :
    Option SupabaseCredentials :=
  match status with
  | .error _ => none
  | .ok output =>
    match searchField apiUrlLabel output,
        searchField anonKeyLabel output,
        searchField dbUrlLabel output with
    | some a, some k, some d => some ⟨jsTrim a, jsTrim k, jsTrim d⟩
    | _, _, _ => none

/-- C3: the credential fetcher returns a structured triple iff all three
labeled fields match in the status text; a subprocess error yields `none`;
and on a text containing only `API URL:` and `anon key:` (no `DB URL:`) the
result is `none`, never a partial object. -/
theorem getSupabaseLocalCredentials_spec :
    (∀ out : List Char,
        (getSupabaseLocalCredentials (.ok out)).isSome ↔
          ((searchField apiUrlLabel out).isSome ∧
            (searchField anonKeyLabel out).isSome ∧
            (searchField dbUrlLabel out).isSome)) ∧
    getSupabaseLocalCredentials (.error ()) = none ∧
    getSupabaseLocalCredentials
        (.ok "API URL: http://localhost:54321\nanon key: sbkey123".data) =
      none := by
  refine ⟨?_, rfl, by decide⟩
  intro out
  unfold getSupabaseLocalCredentials
  cases hA : searchField apiUrlLabel out <;>
    cases hK : searchField anonKeyLabel out <;>
      cases hD : searchField dbUrlLabel out <;> simp [hA, hK, hD]

/-! ## C7: auth connectivity probe (`testSupabaseConnection`, utils) -/

/-- Modelled from the WHATWG fetch standard (external to this repository):
an HTTP response carries a status code, and its `ok` flag is set exactly when
the status is in the inclusive range 200–299. -/
structure HttpResponse where
  status : Nat
deriving DecidableEq

/-- The `Response.ok` flag: status in 200–299. -/
def responseOk (r : HttpResponse) : Bool :=
  decide (200 ≤ r.status) && decide (r.status ≤ 299)

/-- `testSupabaseConnection` from `utils`: the single GET either throws
(modelled `Except.error`, network failure) or yields a response; the probe
returns `response.ok`, and `false` on a throw — no exception escapes. -/
def testSupabaseConnection (outcome : Except Unit HttpResponse) : Bool :=
  match outcome with
  | .ok r => responseOk r
  | .error _ => false

/-- C7 counterexample: a 301 response is in the claim's "2xx/3xx class", yet
the probe returns `false` on it — `response.ok` holds only for 2xx. -/
theorem testSupabaseConnection_3xx_cex :
    testSupabaseConnection (.ok ⟨301⟩) = false ∧
    (200 ≤ 301 ∧ 301 ≤ 399) := by decide

/-- C7 amended: the probe succeeds iff the GET yields a response whose status
is 2xx (the `.ok` flag, 200–299); every other outcome — including a 401
response and a thrown network error — yields failure, and no exception
escapes the probe. -/
theorem testSupabaseConnection_spec :
    (∀ outcome : Except Unit HttpResponse,
        testSupabaseConnection outcome = true ↔
          ∃ r, outcome = .ok r ∧ 200 ≤ r.status ∧ r.status ≤ 299) ∧
    testSupabaseConnection (.ok ⟨200⟩) = true ∧
    testSupabaseConnection (.ok ⟨401⟩) = false ∧
    testSupabaseConnection (.error ()) = false := by
  refine ⟨?_, by decide, by decide, rfl⟩
  intro outcome
  cases outcome with
  | error e => simp [testSupabaseConnection]
  | ok r =>
    simp [testSupabaseConnection, responseOk]

/-! ## C8: dependency-remediation orchestration (`initializeCLI`, cli) -/

/-- Result of the pnpm install step (`installPnpm`): success, a
permission-denied failure (EACCES), or a generic failure. -/
inductive InstallOutcome where
  | success
  | permissionDenied
  | failure
deriving DecidableEq

/-- The two installable remediations queued by `initializeCLI`. -/
inductive InstallAction where
  | pnpmInstall (upgrade : Bool)
  | localDeps
deriving DecidableEq

/-- One dependency-remediation scenario: what the probe reported
(`checkDependencies`), the user's consent answer, and the outcome each
remediation would produce if executed. -/
structure InstallScenario where
  pnpmNeedsInstall : Bool
  pnpmNeedsUpgrade : Bool
  localNeedsInstall : Bool
  shouldInstall : Bool
  pnpmResult : InstallOutcome
  localResult : Bool
deriving DecidableEq

/-- The `installActions` list built by `initializeCLI`: the pnpm
install/upgrade action is pushed first (install if missing, else upgrade if
outdated), then the local-dependency install action. -/
def installActions (s : InstallScenario) : List InstallAction :=
  (if s.pnpmNeedsInstall then [.pnpmInstall false]
   else if s.pnpmNeedsUpgrade then [.pnpmInstall true]
   else []) ++
  (if s.localNeedsInstall then [.localDeps] else [])

/-- Whether an action's result makes `initializeCLI` abort: the pnpm step
fails on any non-success result (permission-denied included), the local step
on a `false` return. -/
def actionFails (s : InstallScenario) : InstallAction → Bool
  | .pnpmInstall _ => decide (s.pnpmResult ≠ .success)
  | .localDeps => !s.localResult

/-- The sequential install loop of `initializeCLI`: actions run in list
order; the first failing action is executed and then the process exits
(`process.exit(1)`), so nothing after it runs.  Returns the list of actions
actually executed, in execution order. -/
def runActions (s : InstallScenario) : List InstallAction → List InstallAction
  | [] => []
  | a :: rest => if actionFails s a then [a] else a :: runActions s rest

/-- The remediations executed in a run of `initializeCLI`: nothing runs when
the user declines the consent prompt; otherwise the queued actions run
sequentially until the first failure. -/
def executedRemediations (s : InstallScenario) : List InstallAction :=
  if s.shouldInstall then runActions s (installActions s) else []

/-- C8: in every scenario that requires both a package-manager install (or
upgrade) and a local-package install, whenever anything is executed the first
executed remediation is the pnpm step, and whenever the pnpm step fails
(permission-denied included) the local-package step is never executed. -/
theorem initializeCLI_sequencing (s : InstallScenario)
    (hp : s.pnpmNeedsInstall = true ∨ s.pnpmNeedsUpgrade = true)
    (hl : s.localNeedsInstall = true) :
    (executedRemediations s ≠ [] →
      ∃ u, (executedRemediations s).head? = some (.pnpmInstall u)) ∧
    (s.pnpmResult ≠ .success →
      InstallAction.localDeps ∉ executedRemediations s) := by
  rcases s with ⟨pi, pu, ln, si, pr, lr⟩
  simp only at hp hl
  subst hl
  cases si <;> cases pi <;> cases pu <;> cases pr <;> cases lr <;>
    revert hp <;> decide

/-- Witness for `initializeCLI_sequencing`: pnpm needs installing, local
dependencies need installing, the user consents, and the pnpm step hits a
permission-denied failure — the trace is the pnpm step alone. -/
theorem initializeCLI_sequencing_witness :
    ((InstallScenario.mk true false true true .permissionDenied
        true).pnpmNeedsInstall = true ∨
      (InstallScenario.mk true false true true .permissionDenied
        true).pnpmNeedsUpgrade = true) ∧
    (InstallScenario.mk true false true true .permissionDenied
        true).localNeedsInstall = true ∧
    ((executedRemediations
        (InstallScenario.mk true false true true .permissionDenied true) ≠ [] →
      ∃ u, (executedRemediations
          (InstallScenario.mk true false true true .permissionDenied
            true)).head? = some (.pnpmInstall u)) ∧
     ((InstallScenario.mk true false true true .permissionDenied
          true).pnpmResult ≠ .success →
      InstallAction.localDeps ∉ executedRemediations
        (InstallScenario.mk true false true true .permissionDenied true))) :=
  ⟨Or.inl rfl, rfl,
    initializeCLI_sequencing _ (Or.inl rfl) rfl⟩

/-! ## Env-file reconciler (`updateEnvFile`, utils) — infrastructure -/

theorem splitOnChar_ne_nil (sep : Char) (l : List Char) :
    splitOnChar sep l ≠ [] := by
  cases l with
  | nil => simp [splitOnChar]
  | cons c cs =>
    by_cases h : c = sep
    · simp [splitOnChar, h]
    · simp only [splitOnChar, if_neg h]
      cases splitOnChar sep cs <;> simp

theorem sep_not_mem_splitOnChar (sep : Char) (l : List Char) :
    ∀ x ∈ splitOnChar sep l, sep ∉ x := by
  induction l with
  | nil => simp [splitOnChar]
  | cons c cs ih =>
    by_cases h : c = sep
    · simp only [splitOnChar, if_pos h, List.mem_cons]
      rintro x (rfl | hx)
      · simp
      · exact ih x hx
    · simp only [splitOnChar, if_neg h]
      cases hs : splitOnChar sep cs with
      | nil => exact absurd hs (splitOnChar_ne_nil sep cs)
      | cons hd tl =>
        simp only [List.mem_cons]
        rintro x (rfl | hx)
        · intro hmem
          rcases List.mem_cons.mp hmem with rfl | hmem'
          · exact h rfl
          · exact ih hd (by simp [hs]) hmem'
        · exact ih x (by simp [hs, hx])

theorem joinNl_splitNl (l : List Char) : joinNl (splitNl l) = l := by
  induction l with
  | nil => rfl
  | cons c cs ih =>
    by_cases h : c = '\n'
    · subst h
      have hstep : splitNl ('\n' :: cs) = [] :: splitNl cs := by
        simp [splitNl, splitOnChar]
      rw [hstep]
      cases hs : splitNl cs with
      | nil => exact absurd hs (splitOnChar_ne_nil '\n' cs)
      | cons hd tl =>
        rw [show joinNl ([] :: hd :: tl) = '\n' :: joinNl (hd :: tl) from rfl,
          ← hs, ih]
    · simp only [splitNl, splitOnChar, if_neg h]
      cases hs : splitOnChar '\n' cs with
      | nil => exact absurd hs (splitOnChar_ne_nil '\n' cs)
      | cons hd tl =>
        have ih' : joinNl (hd :: tl) = cs := by
          rw [← hs]; exact ih
        cases tl with
        | nil =>
          simp only [joinNl] at ih' ⊢
          rw [ih']
        | cons t ts =>
          rw [show joinNl ((c :: hd) :: t :: ts) =
            (c :: hd) ++ '\n' :: joinNl (t :: ts) from rfl]
          rw [show joinNl (hd :: t :: ts) = hd ++ '\n' :: joinNl (t :: ts) from rfl] at ih'
          simp [← ih']

theorem splitNl_no_nl (x : List Char) (h : '\n' ∉ x) : splitNl x = [x] := by
  induction x with
  | nil => rfl
  | cons c cs ih =>
    have hc : c ≠ '\n' := fun hc => h (by simp [hc])
    have ih' : splitNl cs = [cs] := ih fun hm => h (by simp [hm])
    simp only [splitNl, splitOnChar, if_neg hc] at ih' ⊢
    rw [ih']

theorem splitNl_append_nl (x r : List Char) (h : '\n' ∉ x) :
    splitNl (x ++ '\n' :: r) = x :: splitNl r := by
  induction x with
  | nil => simp [splitNl, splitOnChar]
  | cons c cs ih =>
    have hc : c ≠ '\n' := fun hc => h (by simp [hc])
    have ih' : splitNl (cs ++ '\n' :: r) = cs :: splitNl r :=
      ih fun hm => h (by simp [hm])
    simp only [splitNl, List.cons_append, splitOnChar, if_neg hc,
      List.append_eq] at ih' ⊢
    rw [ih']

theorem splitNl_joinNl (L : List (List Char)) (hne : L ≠ [])
    (hfree : ∀ x ∈ L, '\n' ∉ x) : splitNl (joinNl L) = L := by
  induction L with
  | nil => exact absurd rfl hne
  | cons x t ih =>
    cases t with
    | nil =>
      rw [show joinNl [x] = x from rfl]
      exact splitNl_no_nl x (hfree x (by simp))
    | cons y ts =>
      rw [show joinNl (x :: y :: ts) = x ++ '\n' :: joinNl (y :: ts) from rfl]
      rw [splitNl_append_nl x _ (hfree x (by simp))]
      rw [ih (by simp) fun z hz => hfree z (by simp [hz])]

/-! ## Env-file reconciler — the `updateEnvFile` upsert (C4, C5) -/

/-- Whether an env-file line is an active assignment of `key`: the
`m`-flagged regex `^KEY=.*$` of `updateEnvFile` matches a line exactly when
the line starts with `KEY=` (for a regex-literal key). -/
def isKeyLine (key : List Char) (l : List Char) : Bool :=
  (key ++ ['=']).isPrefixOf l

/-- The replacement/appended line `KEY=VALUE`. -/
def envEntry (key value : List Char) : List Char := key ++ '=' :: value

/-- JavaScript `content.replace(regex, entry)` with a non-global regex:
replace only the first matching line, leaving everything else in place.
The replacement is inserted literally, which matches JavaScript only when it
contains no `$`-patterns (`$&`, `$'`, …); the theorems therefore restrict
values to be `$`-free. -/
def replaceFirstLine (p : List Char → Bool) (r : List Char) :
    List (List Char) → List (List Char)
  | [] => []
  | l :: ls => if p l then r :: ls else l :: replaceFirstLine p r ls

/-- The append branch of `updateEnvFile`, in line space: ensure the previous
content ends with a newline (no-op when the content is empty or already
newline-terminated), then append `entry` plus a final newline.  A trailing
`[]` line is the line-space image of a trailing newline. -/
def appendEnvLine (lines : List (List Char)) (entry : List Char) :
    List (List Char) :=
  if lines.getLast? = some [] then lines.dropLast ++ [entry, []]
  else lines ++ [entry, []]

/-- One key/value step of `updateEnvFile`: if some line matches `^KEY=.*$`,
replace the first such line with `KEY=VALUE`; otherwise append a fresh
`KEY=VALUE` line. -/
def upsertLine (lines : List (List Char)) (key value : List Char) :
    List (List Char) :=
  if lines.any (isKeyLine key) then
    replaceFirstLine (isKeyLine key) (envEntry key value) lines
  else appendEnvLine lines (envEntry key value)

/-- `updateEnvFile` from `utils`: read the content (empty when the file does
not exist), apply the upsert for each update pair in order, and write the
result back. -/
def upsertAll (lines : List (List Char))
    (updates : List (List Char × List Char)) : List (List Char) :=
  updates.foldl (fun L kv => upsertLine L kv.1 kv.2) lines

def updateEnvFile (content : List Char)
    (updates : List (List Char × List Char)) : List Char :=
  joinNl (upsertAll (splitNl content) updates)

theorem isKeyLine_envEntry (key value : List Char) :
    isKeyLine key (envEntry key value) = true := by
  have : key ++ '=' :: value = (key ++ ['=']) ++ value := by simp
  rw [isKeyLine, envEntry, this, List.isPrefixOf_iff_prefix]
  exact List.prefix_append _ _

theorem isKeyLine_nil (key : List Char) : isKeyLine key [] = false := by
  rw [isKeyLine]
  cases key <;> rfl

/-- Two `=`-free keys assign the same line prefix only when equal: the core
disambiguation fact for distinct env keys. -/
theorem keyPrefix_prefix_iff (K k v : List Char) (hK : '=' ∉ K)
    (hk : '=' ∉ k) :
    ((K ++ ['=']).isPrefixOf (k ++ '=' :: v) = true ↔ K = k) := by
  induction K generalizing k with
  | nil =>
    cases k with
    | nil => simp [List.isPrefixOf]
    | cons c k' =>
      have hc : '=' ≠ c := fun h => hk (by simp [← h])
      simp [List.isPrefixOf, hc]
  | cons a K' ih =>
    have ha : a ≠ '=' := fun h => hK (by simp [h])
    cases k with
    | nil =>
      simp [List.isPrefixOf, ha]
    | cons c k' =>
      have hK' : '=' ∉ K' := fun h => hK (by simp [h])
      have hk' : '=' ∉ k' := fun h => hk (by simp [h])
      by_cases hac : a = c
      · subst hac
        simp [List.isPrefixOf, ih k' hK' hk']
      · simp [List.isPrefixOf, hac]

theorem isKeyLine_envEntry_other (K k v : List Char) (hK : '=' ∉ K)
    (hk : '=' ∉ k) (hne : K ≠ k) :
    isKeyLine K (envEntry k v) = false := by
  rw [isKeyLine, envEntry]
  rcases h : (K ++ ['=']).isPrefixOf (k ++ '=' :: v) with _ | _
  · rfl
  · exact absurd ((keyPrefix_prefix_iff K k v hK hk).mp h) hne

theorem isKeyLine_other_of_isKeyLine (K k l : List Char) (hK : '=' ∉ K)
    (hk : '=' ∉ k) (hne : K ≠ k) (h : isKeyLine k l = true) :
    isKeyLine K l = false := by
  rw [isKeyLine, List.isPrefixOf_iff_prefix] at h
  obtain ⟨rest, hrest⟩ := h
  have : l = k ++ '=' :: rest := by simp [← hrest]
  subst this
  exact isKeyLine_envEntry_other K k rest hK hk hne

theorem length_replaceFirstLine (p : List Char → Bool) (r : List Char)
    (L : List (List Char)) : (replaceFirstLine p r L).length = L.length := by
  induction L with
  | nil => rfl
  | cons l ls ih => by_cases h : p l <;> simp [replaceFirstLine, h, ih]

theorem mem_replaceFirstLine (p : List Char → Bool) (r : List Char)
    (L : List (List Char)) (x : List Char) (hx : x ∈ replaceFirstLine p r L) :
    x ∈ L ∨ x = r := by
  induction L with
  | nil => simp [replaceFirstLine] at hx
  | cons l ls ih =>
    by_cases h : p l
    · rw [replaceFirstLine, if_pos h] at hx
      rcases List.mem_cons.mp hx with rfl | hx'
      · exact Or.inr rfl
      · exact Or.inl (by simp [hx'])
    · rw [replaceFirstLine, if_neg h] at hx
      rcases List.mem_cons.mp hx with rfl | hx'
      · exact Or.inl (by simp)
      · rcases ih hx' with h1 | h1
        · exact Or.inl (by simp [h1])
        · exact Or.inr h1

theorem any_replaceFirstLine (p : List Char → Bool) (r : List Char)
    (L : List (List Char)) (hr : p r = true) (hL : L.any p = true) :
    (replaceFirstLine p r L).any p = true := by
  induction L with
  | nil => simp at hL
  | cons l ls ih =>
    by_cases h : p l
    · simp [replaceFirstLine, h, hr]
    · rw [replaceFirstLine, if_neg h]
      have hL' : ls.any p = true := by simpa [h] using hL
      simp [h, ih hL']

theorem replaceFirstLine_idem (p : List Char → Bool) (r : List Char)
    (L : List (List Char)) (hr : p r = true) :
    replaceFirstLine p r (replaceFirstLine p r L) = replaceFirstLine p r L := by
  induction L with
  | nil => rfl
  | cons l ls ih =>
    by_cases h : p l
    · simp [replaceFirstLine, h, hr]
    · simp [replaceFirstLine, h, ih]

theorem replaceFirstLine_append_not_any (p : List Char → Bool) (r : List Char)
    (A B : List (List Char)) (hA : A.any p = false) (hr : p r = true) :
    replaceFirstLine p r (A ++ r :: B) = A ++ r :: B := by
  induction A with
  | nil => simp [replaceFirstLine, hr]
  | cons a A' ih =>
    have ha : p a = false := by
      cases hpa : p a with
      | false => rfl
      | true => rw [List.any_cons, hpa, Bool.true_or] at hA; exact absurd hA (by simp)
    have hA' : A'.any p = false := by
      rw [List.any_cons, ha, Bool.false_or] at hA; exact hA
    simp [replaceFirstLine, ha, ih hA']

theorem filter_replaceFirstLine_same (p : List Char → Bool) (r : List Char)
    (L : List (List Char)) (hr : p r = true) :
    ((replaceFirstLine p r L).filter p).length = (L.filter p).length := by
  induction L with
  | nil => rfl
  | cons l ls ih =>
    by_cases h : p l
    · simp [replaceFirstLine, h, hr, List.filter_cons]
    · simp [replaceFirstLine, h, List.filter_cons, ih]

theorem filter_replaceFirstLine_single (p : List Char → Bool) (r : List Char)
    (L : List (List Char)) (hr : p r = true) (hany : L.any p = true)
    (h1 : (L.filter p).length ≤ 1) :
    (replaceFirstLine p r L).filter p = [r] := by
  induction L with
  | nil => simp at hany
  | cons l ls ih =>
    by_cases h : p l
    · have hls : ls.filter p = [] := by
        rw [List.filter_cons_of_pos h] at h1
        simp only [List.length_cons] at h1
        exact List.length_eq_zero.mp (by omega)
      simp [replaceFirstLine, h, hr, List.filter_cons, hls]
    · have hany' : ls.any p = true := by simpa [h] using hany
      have h1' : (ls.filter p).length ≤ 1 := by
        rwa [List.filter_cons_of_neg (by simp [h])] at h1
      simp [replaceFirstLine, h, List.filter_cons, ih hany' h1']

theorem filter_replaceFirstLine_other (p q : List Char → Bool) (r : List Char)
    (L : List (List Char)) (hpr : p r = false)
    (himp : ∀ l, q l = true → p l = false) :
    (replaceFirstLine q r L).filter p = L.filter p := by
  induction L with
  | nil => rfl
  | cons l ls ih =>
    by_cases h : q l
    · have hpl : p l = false := himp l h
      simp [replaceFirstLine, h, List.filter_cons, hpl, hpr]
    · simp [replaceFirstLine, h, List.filter_cons, ih]

theorem any_dropLast_false (p : List Char → Bool) (L : List (List Char))
    (h : L.any p = false) : L.dropLast.any p = false := by
  rw [List.any_eq_false] at h ⊢
  exact fun x hx => h x (List.mem_of_mem_dropLast hx)

theorem filter_eq_nil_of_any_false (p : List Char → Bool)
    (L : List (List Char)) (h : L.any p = false) : L.filter p = [] := by
  rw [List.any_eq_false] at h
  exact List.filter_eq_nil_iff.mpr h

theorem filter_appendEnvLine (p : List Char → Bool) (e : List Char)
    (L : List (List Char)) (he : p e = true) (hnil : p [] = false)
    (hL : L.any p = false) : (appendEnvLine L e).filter p = [e] := by
  unfold appendEnvLine
  by_cases h : L.getLast? = some []
  · rw [if_pos h, List.filter_append,
      filter_eq_nil_of_any_false p _ (any_dropLast_false p L hL)]
    simp [List.filter_cons, he, hnil]
  · rw [if_neg h, List.filter_append, filter_eq_nil_of_any_false p _ hL]
    simp [List.filter_cons, he, hnil]

theorem filter_appendEnvLine_other (p : List Char → Bool) (e : List Char)
    (L : List (List Char)) (he : p e = false) (hnil : p [] = false) :
    ((appendEnvLine L e).filter p).length ≤ (L.filter p).length := by
  unfold appendEnvLine
  by_cases h : L.getLast? = some []
  · rw [if_pos h, List.filter_append]
    simp only [List.filter_cons, he, hnil, Bool.false_eq_true, if_false,
      List.filter_nil, List.append_nil]
    exact ((List.dropLast_sublist L).filter p).length_le
  · rw [if_neg h, List.filter_append]
    simp [List.filter_cons, he, hnil]

theorem mem_appendEnvLine (L : List (List Char)) (e x : List Char)
    (hx : x ∈ appendEnvLine L e) : x ∈ L ∨ x = e ∨ x = [] := by
  unfold appendEnvLine at hx
  by_cases h : L.getLast? = some []
  · rw [if_pos h] at hx
    rcases List.mem_append.mp hx with h1 | h1
    · exact Or.inl (List.mem_of_mem_dropLast h1)
    · rcases List.mem_cons.mp h1 with rfl | h2
      · exact Or.inr (Or.inl rfl)
      · exact Or.inr (Or.inr (by simpa using h2))
  · rw [if_neg h] at hx
    rcases List.mem_append.mp hx with h1 | h1
    · exact Or.inl h1
    · rcases List.mem_cons.mp h1 with rfl | h2
      · exact Or.inr (Or.inl rfl)
      · exact Or.inr (Or.inr (by simpa using h2))

theorem mem_envEntry_appendEnvLine (L : List (List Char)) (e : List Char) :
    e ∈ appendEnvLine L e := by
  unfold appendEnvLine
  by_cases h : L.getLast? = some [] <;> simp [h]

theorem appendEnvLine_ne_nil (L : List (List Char)) (e : List Char) :
    appendEnvLine L e ≠ [] := by
  unfold appendEnvLine
  by_cases h : L.getLast? = some [] <;> simp [h]

theorem upsertLine_idem (L : List (List Char)) (K V : List Char) :
    upsertLine (upsertLine L K V) K V = upsertLine L K V := by
  have hr := isKeyLine_envEntry K V
  by_cases hany : L.any (isKeyLine K) = true
  · have hinner : upsertLine L K V =
        replaceFirstLine (isKeyLine K) (envEntry K V) L := by
      rw [upsertLine, if_pos hany]
    rw [hinner, upsertLine, if_pos (any_replaceFirstLine _ _ _ hr hany),
      replaceFirstLine_idem _ _ _ hr]
  · have hinner : upsertLine L K V = appendEnvLine L (envEntry K V) := by
      rw [upsertLine, if_neg hany]
    have hmem : (appendEnvLine L (envEntry K V)).any (isKeyLine K) = true :=
      List.any_eq_true.mpr ⟨envEntry K V, mem_envEntry_appendEnvLine L _, hr⟩
    rw [hinner, upsertLine, if_pos hmem]
    have hLfalse : L.any (isKeyLine K) = false := by
      cases h : L.any (isKeyLine K) with
      | false => rfl
      | true => exact absurd h hany
    unfold appendEnvLine
    by_cases h : L.getLast? = some []
    · rw [if_pos h]
      exact replaceFirstLine_append_not_any _ _ _ [[]]
        (any_dropLast_false _ L hLfalse) hr
    · rw [if_neg h]
      exact replaceFirstLine_append_not_any _ _ _ [[]] hLfalse hr

theorem upsertLine_filter_single (L : List (List Char)) (K V : List Char)
    (h1 : (L.filter (isKeyLine K)).length ≤ 1) :
    (upsertLine L K V).filter (isKeyLine K) = [envEntry K V] := by
  have hr := isKeyLine_envEntry K V
  by_cases hany : L.any (isKeyLine K) = true
  · rw [upsertLine, if_pos hany]
    exact filter_replaceFirstLine_single _ _ _ hr hany h1
  · rw [upsertLine, if_neg hany]
    have hLfalse : L.any (isKeyLine K) = false := by
      cases h : L.any (isKeyLine K) with
      | false => rfl
      | true => exact absurd h hany
    exact filter_appendEnvLine _ _ _ hr (isKeyLine_nil K) hLfalse

theorem upsertLine_count_le (L : List (List Char)) (k v K : List Char)
    (hK : '=' ∉ K) (hk : '=' ∉ k)
    (h1 : (L.filter (isKeyLine K)).length ≤ 1) :
    ((upsertLine L k v).filter (isKeyLine K)).length ≤ 1 := by
  by_cases hkK : K = k
  · subst hkK
    rw [upsertLine_filter_single L K v h1]
    simp
  · have hpe : isKeyLine K (envEntry k v) = false :=
      isKeyLine_envEntry_other K k v hK hk hkK
    have himp : ∀ l, isKeyLine k l = true → isKeyLine K l = false :=
      fun l h => isKeyLine_other_of_isKeyLine K k l hK hk hkK h
    by_cases hany : L.any (isKeyLine k) = true
    · rw [upsertLine, if_pos hany,
        filter_replaceFirstLine_other (isKeyLine K) (isKeyLine k) _ _ hpe himp]
      exact h1
    · rw [upsertLine, if_neg hany]
      exact le_trans
        (filter_appendEnvLine_other _ _ _ hpe (isKeyLine_nil K)) h1

theorem upsertLine_ne_nil (L : List (List Char)) (K V : List Char)
    (h : L ≠ []) : upsertLine L K V ≠ [] := by
  by_cases hany : L.any (isKeyLine K) = true
  · rw [upsertLine, if_pos hany]
    intro hc
    have := length_replaceFirstLine (isKeyLine K) (envEntry K V) L
    rw [hc] at this
    exact h (List.length_eq_zero.mp this.symm)
  · rw [upsertLine, if_neg hany]
    exact appendEnvLine_ne_nil L _

theorem upsertLine_no_nl (L : List (List Char)) (K V : List Char)
    (hL : ∀ x ∈ L, '\n' ∉ x) (hK : '\n' ∉ K) (hV : '\n' ∉ V) :
    ∀ x ∈ upsertLine L K V, '\n' ∉ x := by
  have he : '\n' ∉ envEntry K V := by
    rw [envEntry]
    intro hmem
    rcases List.mem_append.mp hmem with h | h
    · exact hK h
    · rcases List.mem_cons.mp h with h' | h'
      · exact absurd h' (by decide)
      · exact hV h'
  intro x hx
  by_cases hany : L.any (isKeyLine K) = true
  · rw [upsertLine, if_pos hany] at hx
    rcases mem_replaceFirstLine _ _ _ _ hx with h | rfl
    · exact hL x h
    · exact he
  · rw [upsertLine, if_neg hany] at hx
    rcases mem_appendEnvLine _ _ _ hx with h | rfl | rfl
    · exact hL x h
    · exact he
    · simp

theorem upsertAll_ne_nil (updates : List (List Char × List Char))
    (L : List (List Char)) (h : L ≠ []) : upsertAll L updates ≠ [] := by
  induction updates generalizing L with
  | nil => exact h
  | cons kv rest ih =>
    exact ih (upsertLine L kv.1 kv.2) (upsertLine_ne_nil L kv.1 kv.2 h)

theorem upsertAll_no_nl (updates : List (List Char × List Char))
    (L : List (List Char)) (hL : ∀ x ∈ L, '\n' ∉ x)
    (hup : ∀ kv ∈ updates, '\n' ∉ kv.1 ∧ '\n' ∉ kv.2) :
    ∀ x ∈ upsertAll L updates, '\n' ∉ x := by
  induction updates generalizing L with
  | nil => exact hL
  | cons kv rest ih =>
    exact ih (upsertLine L kv.1 kv.2)
      (upsertLine_no_nl L kv.1 kv.2 hL (hup kv (by simp)).1 (hup kv (by simp)).2)
      (fun kv' hkv' => hup kv' (by simp [hkv']))

theorem upsertAll_count_le (updates : List (List Char × List Char))
    (L : List (List Char)) (K : List Char) (hK : '=' ∉ K)
    (hup : ∀ kv ∈ updates, '=' ∉ kv.1)
    (h1 : (L.filter (isKeyLine K)).length ≤ 1) :
    ((upsertAll L updates).filter (isKeyLine K)).length ≤ 1 := by
  induction updates generalizing L with
  | nil => exact h1
  | cons kv rest ih =>
    exact ih (upsertLine L kv.1 kv.2) (fun kv' hkv' => hup kv' (by simp [hkv']))
      (upsertLine_count_le L kv.1 kv.2 K hK (hup kv (by simp)) h1)

/-- Characters allowed in env keys for the upsert to be modelled faithfully:
the key is interpolated verbatim into the `^KEY=.*$` regular expression, so
the model restricts keys to word characters (no regex metacharacters, no
`=`, no newlines) — all recognized keys of the reconciler are of this form. -/
def isWordChar (c : Char) : Bool := c.isAlphanum || c = '_'

theorem wordChar_key_facts (K : List Char) (h : K.all isWordChar = true) :
    '\n' ∉ K ∧ '=' ∉ K := by
  constructor
  · intro hm
    exact absurd (List.all_eq_true.mp h _ hm) (by decide)
  · intro hm
    exact absurd (List.all_eq_true.mp h _ hm) (by decide)

/-- C4 counterexample: on a file that already contains two active `A=1`
lines, applying the upsert of `{A: 1}` twice leaves **two** active `A=1`
lines, refuting "exactly one active K=V line" for arbitrary initial
content — `updateEnvFile` replaces only the first matching line. -/
theorem updateEnvFile_twice_duplicate_cex :
    ((splitNl (updateEnvFile
        (updateEnvFile "A=1\nA=1\n".data [("A".data, "1".data)])
        [("A".data, "1".data)])).filter (isKeyLine "A".data)).length = 2 := by
  decide

/-- C4 amended: for a word-character key `K` and a newline- and dollar-free
value `V` (the shape of every key/value this reconciler writes), the upsert
of `{K: V}` is idempotent — the content after the second application equals
the content after the first — and when the initial content contains at most
one active `K`-assignment line, the result contains exactly one active
`K`-line, namely `K=V`. -/
theorem updateEnvFile_upsert_idempotent (content K V : List Char)
    (hK : K.all isWordChar = true) (hV : '\n' ∉ V) (_hV2 : '$' ∉ V) :
    updateEnvFile (updateEnvFile content [(K, V)]) [(K, V)] =
      updateEnvFile content [(K, V)] ∧
    (((splitNl content).filter (isKeyLine K)).length ≤ 1 →
      (splitNl (updateEnvFile content [(K, V)])).filter (isKeyLine K) =
        [envEntry K V]) := by
  obtain ⟨hKn, _hKe⟩ := wordChar_key_facts K hK
  have hLfree : ∀ x ∈ splitNl content, '\n' ∉ x :=
    sep_not_mem_splitOnChar '\n' content
  have hLne : splitNl content ≠ [] := splitOnChar_ne_nil '\n' content
  have hone : upsertAll (splitNl content) [(K, V)] =
      upsertLine (splitNl content) K V := rfl
  have hfree' : ∀ x ∈ upsertLine (splitNl content) K V, '\n' ∉ x :=
    upsertLine_no_nl _ K V hLfree hKn hV
  have hne' : upsertLine (splitNl content) K V ≠ [] :=
    upsertLine_ne_nil _ K V hLne
  have hsplit : splitNl (updateEnvFile content [(K, V)]) =
      upsertLine (splitNl content) K V := by
    rw [updateEnvFile, hone]
    exact splitNl_joinNl _ hne' hfree'
  constructor
  · show joinNl (upsertAll (splitNl (updateEnvFile content [(K, V)]))
        [(K, V)]) = updateEnvFile content [(K, V)]
    rw [show ∀ L, upsertAll L [(K, V)] = upsertLine L K V from fun _ => rfl,
      hsplit, upsertLine_idem, updateEnvFile, hone]
  · intro hcount
    rw [hsplit]
    exact upsertLine_filter_single _ K V hcount

/-- Witness for `updateEnvFile_upsert_idempotent` at a concrete file and the
recognized key `DATABASE_URL`. -/
theorem updateEnvFile_upsert_idempotent_witness :
    ("DATABASE_URL".data.all isWordChar = true) ∧
    ('\n' ∉ "postgresql://u:p@h/d".data) ∧
    ('$' ∉ "postgresql://u:p@h/d".data) ∧
    (updateEnvFile (updateEnvFile "NEXT_PUBLIC_SITE_URL=http://localhost:3000\n".data
        [("DATABASE_URL".data, "postgresql://u:p@h/d".data)])
        [("DATABASE_URL".data, "postgresql://u:p@h/d".data)] =
      updateEnvFile "NEXT_PUBLIC_SITE_URL=http://localhost:3000\n".data
        [("DATABASE_URL".data, "postgresql://u:p@h/d".data)] ∧
    (((splitNl "NEXT_PUBLIC_SITE_URL=http://localhost:3000\n".data).filter
        (isKeyLine "DATABASE_URL".data)).length ≤ 1 →
      (splitNl (updateEnvFile "NEXT_PUBLIC_SITE_URL=http://localhost:3000\n".data
          [("DATABASE_URL".data, "postgresql://u:p@h/d".data)])).filter
        (isKeyLine "DATABASE_URL".data) =
        [envEntry "DATABASE_URL".data "postgresql://u:p@h/d".data])) :=
  ⟨by decide, by decide, by decide,
    updateEnvFile_upsert_idempotent _ _ _ (by decide) (by decide) (by decide)⟩

/-- C5 counterexample: a single reconciliation pass over content that already
contains two active `DATABASE_URL` assignments leaves two active
`DATABASE_URL` lines — the non-global regex replaces only the first. -/
theorem updateEnvFile_pass_duplicate_cex :
    ((splitNl (updateEnvFile "DATABASE_URL=a\nDATABASE_URL=b\n".data
        [("DATABASE_URL".data, "c".data)])).filter
      (isKeyLine "DATABASE_URL".data)).length = 2 := by
  decide

/-- C5 amended: after a single pass of the upsert with any update map whose
keys are word characters and whose values are newline- and dollar-free (the
dollar-free restriction keeps the values inert under JavaScript's `$`-pattern
substitution in `String.replace` replacements, the same faithful domain as
C4), every key `K` (in particular each recognized key) that had at most one
active assignment line before the pass has at most one active assignment
line after it. -/
theorem updateEnvFile_at_most_once (content : List Char)
    (updates : List (List Char × List Char)) (K : List Char)
    (hK : K.all isWordChar = true)
    (hup : ∀ kv ∈ updates,
      kv.1.all isWordChar = true ∧ '\n' ∉ kv.2 ∧ '$' ∉ kv.2)
    (hcount : ((splitNl content).filter (isKeyLine K)).length ≤ 1) :
    ((splitNl (updateEnvFile content updates)).filter
      (isKeyLine K)).length ≤ 1 := by
  obtain ⟨_hKn, hKe⟩ := wordChar_key_facts K hK
  have hLfree : ∀ x ∈ splitNl content, '\n' ∉ x :=
    sep_not_mem_splitOnChar '\n' content
  have hLne : splitNl content ≠ [] := splitOnChar_ne_nil '\n' content
  have hsplit : splitNl (updateEnvFile content updates) =
      upsertAll (splitNl content) updates := by
    rw [updateEnvFile]
    exact splitNl_joinNl _ (upsertAll_ne_nil updates _ hLne)
      (upsertAll_no_nl updates _ hLfree fun kv hkv =>
        ⟨(wordChar_key_facts kv.1 (hup kv hkv).1).1, (hup kv hkv).2.1⟩)
  rw [hsplit]
  exact upsertAll_count_le updates _ K hKe
    (fun kv hkv => (wordChar_key_facts kv.1 (hup kv hkv).1).2) hcount

/-- Witness for `updateEnvFile_at_most_once`: a credential-refresh pass
(the three keys written by `createEnvFiles`) over a file that assigns
`DATABASE_URL` once. -/
theorem updateEnvFile_at_most_once_witness :
    ("DATABASE_URL".data.all isWordChar = true) ∧
    (∀ kv ∈ [("NEXT_PUBLIC_SUPABASE_URL".data, "http://localhost:54321".data),
        ("DATABASE_URL".data, "postgresql://u:p@h/d".data)],
      kv.1.all isWordChar = true ∧ '\n' ∉ kv.2 ∧ '$' ∉ kv.2) ∧
    (((splitNl "DATABASE_URL=old\n# comment\n".data).filter
        (isKeyLine "DATABASE_URL".data)).length ≤ 1) ∧
    ((splitNl (updateEnvFile "DATABASE_URL=old\n# comment\n".data
        [("NEXT_PUBLIC_SUPABASE_URL".data, "http://localhost:54321".data),
          ("DATABASE_URL".data, "postgresql://u:p@h/d".data)])).filter
      (isKeyLine "DATABASE_URL".data)).length ≤ 1 :=
  ⟨by decide, by decide, by decide,
    updateEnvFile_at_most_once _ _ _ (by decide) (by decide) (by decide)⟩

/-! ## Promote-to-production rewrites (`connectAuth`/`connectDatabase`) -/

/-- What a maximal newline run becomes under the global replace
`\n{3,} → "\n\n"`: runs of three or more newlines collapse to two, shorter
runs are kept. -/
def collapseEmit (run : Nat) : List Char :=
  if 3 ≤ run then ['\n', '\n'] else List.replicate run '\n'

/-- Scanner for the global replace `\n{3,} → "\n\n"`, carrying the length of
the pending newline run. -/
def collapseAux : Nat → List Char → List Char
  | run, [] => collapseEmit run
  | run, c :: cs =>
    if c = '\n' then collapseAux (run + 1) cs
    else collapseEmit run ++ c :: collapseAux 0 cs

/-- JavaScript `content.replace(/\n{3,}/g, '\n\n')`. -/
def collapseNl (l : List Char) : List Char := collapseAux 0 l

/-- JavaScript `content.replace(/^PREF.*$/gm, '')`: every line starting with
the (regex-literal) prefix is replaced by an empty line; the surrounding
newlines stay. -/
def removeAssignLines (pref : List Char) (content : List Char) : List Char :=
  joinNl ((splitNl content).map (fun l => if pref.isPrefixOf l then [] else l))

/-- Fuel-indexed scanner for `content.replace(/MARKER.*?\n/g, '')`: at each
position where the literal marker matches and a newline follows, delete from
the marker through that newline and continue after it; `.` cannot cross a
newline, so a marker with no following newline does not match.  The fuel is
the remaining scan budget; callers pass the content length, which the scan
never exhausts. -/
def removeMarkedAux (marker : List Char) : Nat → List Char → List Char
  | _, [] => []
  | 0, s => s
  | fuel + 1, c :: cs =>
    if marker.isPrefixOf (c :: cs) then
      let after := (c :: cs).drop marker.length
      if '\n' ∈ after then
        removeMarkedAux marker fuel ((after.dropWhile (fun x => x ≠ '\n')).drop 1)
      else c :: removeMarkedAux marker fuel cs
    else c :: removeMarkedAux marker fuel cs

/-- JavaScript `content.replace(/MARKER.*?\n/g, '')`. -/
def removeMarked (marker content : List Char) : List Char :=
  removeMarkedAux marker content.length content

/-- The env-content rewrite of `connectAuth` (connect.ts): empty out the two
auth assignment lines, delete the stale section-comment lines, collapse
newline runs, ensure a trailing newline, and append the production auth
block. -/
def connectAuthTransform (content url anonKey : List Char) : List Char :=
  let c1 := removeAssignLines "NEXT_PUBLIC_SUPABASE_URL=".data content
  let c2 := removeAssignLines "NEXT_PUBLIC_SUPABASE_ANON_KEY=".data c1
  let c3 := removeMarked "# Local Supabase Auth".data c2
  let c4 := removeMarked "# Production Supabase Auth".data c3
  let c5 := collapseNl c4
  let c6 := if c5.getLast? ≠ some '\n' ∧ c5 ≠ [] then c5 ++ ['\n'] else c5
  c6 ++ "# Production Supabase Auth\n".data ++
    ("NEXT_PUBLIC_SUPABASE_URL=".data ++ url ++ ['\n']) ++
    ("NEXT_PUBLIC_SUPABASE_ANON_KEY=".data ++ anonKey ++ ['\n'])

/-- The env-content rewrite of `connectDatabase` (connect.ts). -/
def connectDatabaseTransform (content dbUrl : List Char) : List Char :=
  let c1 := removeAssignLines "DATABASE_URL=".data content
  let c2 := removeMarked "# Local Supabase".data c1
  let c3 := removeMarked "# Production Database".data c2
  let c4 := collapseNl c3
  let c5 := if c4.getLast? ≠ some '\n' ∧ c4 ≠ [] then c4 ++ ['\n'] else c4
  c5 ++ "# Production Database\n".data ++
    ("DATABASE_URL=".data ++ dbUrl ++ ['\n'])

theorem collapseAux_no_nl_prefix (a rest : List Char) (ha : '\n' ∉ a) :
    collapseAux 0 (a ++ rest) = a ++ collapseAux 0 rest := by
  induction a with
  | nil => rfl
  | cons c a' ih =>
    have hc : c ≠ '\n' := fun h => ha (by simp [h])
    have ih' := ih fun h => ha (by simp [h])
    simp only [List.cons_append, collapseAux, if_neg hc, List.append_eq, ih',
      collapseEmit]
    simp

theorem collapseNl_no_nl (b : List Char) (hb : '\n' ∉ b) :
    collapseNl b = b := by
  have := collapseAux_no_nl_prefix b [] hb
  simpa [collapseNl, collapseAux, collapseEmit] using this

theorem collapseAux_replicate (k : Nat) (run : Nat) (rest : List Char)
    (hrest : rest.head? ≠ some '\n') :
    collapseAux run (List.replicate k '\n' ++ rest) =
      collapseEmit (run + k) ++ collapseNl rest := by
  induction k generalizing run with
  | zero =>
    cases rest with
    | nil => simp [collapseAux, collapseNl, collapseEmit]
    | cons c cs =>
      have hc : c ≠ '\n' := fun h => hrest (by simp [h])
      simp [collapseAux, collapseNl, if_neg hc, collapseEmit]
  | succ k' ih =>
    rw [List.replicate_succ, List.cons_append,
      show collapseAux run ('\n' :: (List.replicate k' '\n' ++ rest)) =
        collapseAux (run + 1) (List.replicate k' '\n' ++ rest) from by
          simp [collapseAux],
      ih (run + 1)]
    congr 2
    omega

/-- C9 counterexample: the content `A=1\n\n\nB=2\n` contains a run of two
consecutive blank lines (three newlines) — "fewer than 3 blank lines", which
the claim says is kept as is — yet `connectAuth`'s rewrite collapses it to a
single blank line. -/
theorem connectAuth_blank_lines_cex :
    connectAuthTransform "A=1\n\n\nB=2\n".data "U".data "K".data =
      ("A=1\n\nB=2\n# Production Supabase Auth\n" ++
        "NEXT_PUBLIC_SUPABASE_URL=U\nNEXT_PUBLIC_SUPABASE_ANON_KEY=K\n").data ∧
    connectAuthTransform "A=1\n\n\nB=2\n".data "U".data "K".data ≠
      ("A=1\n\n\nB=2\n# Production Supabase Auth\n" ++
        "NEXT_PUBLIC_SUPABASE_URL=U\nNEXT_PUBLIC_SUPABASE_ANON_KEY=K\n").data := by
  constructor
  · decide
  · decide

/-- C9 amended: the promote rewrite strips the old assignment lines (to empty
lines) and the stale section comments, then collapses every run of **3 or
more consecutive newline characters** (that is, 2 or more consecutive blank
lines) down to exactly one blank line (two newlines), while runs of 1 or 2
consecutive newlines are kept as they are; illustrated end to end on a file
with local auth placeholders. -/
theorem connectAuth_collapse_spec :
    (∀ (a b : List Char) (k : Nat), '\n' ∉ a → '\n' ∉ b →
      collapseNl (a ++ List.replicate k '\n' ++ b) =
        a ++ List.replicate (if 3 ≤ k then 2 else k) '\n' ++ b) ∧
    connectAuthTransform
        ("# Local Supabase Auth\nNEXT_PUBLIC_SUPABASE_URL=http://localhost:54321\n" ++
          "NEXT_PUBLIC_SUPABASE_ANON_KEY=old\n\nOTHER=1\n").data
        "U".data "K".data =
      ("\n\nOTHER=1\n# Production Supabase Auth\n" ++
        "NEXT_PUBLIC_SUPABASE_URL=U\nNEXT_PUBLIC_SUPABASE_ANON_KEY=K\n").data := by
  constructor
  · intro a b k ha hb
    have hbh : b.head? ≠ some '\n' := by
      cases b with
      | nil => simp
      | cons c cs =>
        intro h
        exact hb (by rw [Option.some.inj h]; exact List.mem_cons_self _ _)
    calc collapseNl (a ++ List.replicate k '\n' ++ b)
        = collapseAux 0 (a ++ (List.replicate k '\n' ++ b)) := by
          rw [collapseNl, List.append_assoc]
      _ = a ++ collapseAux 0 (List.replicate k '\n' ++ b) :=
          collapseAux_no_nl_prefix a _ ha
      _ = a ++ (collapseEmit (0 + k) ++ collapseNl b) := by
          rw [collapseAux_replicate k 0 b hbh]
      _ = a ++ (collapseEmit k ++ b) := by
          rw [collapseNl_no_nl b hb, Nat.zero_add]
      _ = a ++ List.replicate (if 3 ≤ k then 2 else k) '\n' ++ b := by
          rw [collapseEmit]
          by_cases h3 : 3 ≤ k
          · simp [h3, List.append_assoc]
          · simp [h3, List.append_assoc]
  · decide

/-- Witness for `connectAuth_collapse_spec` at a run of three newlines. -/
theorem connectAuth_collapse_spec_witness :
    ('\n' ∉ "A=1".data) ∧ ('\n' ∉ "B=2".data) ∧
    collapseNl ("A=1".data ++ List.replicate 3 '\n' ++ "B=2".data) =
      "A=1".data ++ List.replicate (if 3 ≤ 3 then 2 else 3) '\n' ++ "B=2".data :=
  ⟨by decide, by decide,
    connectAuth_collapse_spec.1 "A=1".data "B=2".data 3 (by decide) (by decide)⟩

/-! ## Filesystem state for the connect operations (C6, C10) -/

/-- State of the files touched by an env-file operation: the `.env.local`
content (`none` when the file does not exist) and the contents of the
timestamped backup copies created so far, in creation order. -/
structure EnvFS where
  env : Option (List Char)
  backups : List (List Char)
deriving DecidableEq

/-- The backup step at the top of `connectAuth`/`connectDatabase`: when
`.env.local` exists, copy its current content to a fresh timestamped sibling
file before anything else happens. -/
def backupIfExists (fs : EnvFS) : EnvFS :=
  match fs.env with
  | some c => { fs with backups := fs.backups ++ [c] }
  | none => fs

/-- `connectAuth` (connect.ts) over the file state: back up, prompt for the
URL/key, probe the credentials (`probeOk`); on a failed probe ask the user
whether to continue anyway (`continueAnyway`) and return without writing if
they decline; otherwise rewrite the file with the production auth block. -/
def connectAuth (fs : EnvFS) (url anonKey : List Char)
    (probeOk continueAnyway : Bool) : EnvFS :=
  let fs1 := backupIfExists fs
  if probeOk = false ∧ continueAnyway = false then fs1
  else { fs1 with
    env := some (connectAuthTransform (fs1.env.getD []) url anonKey) }

/-- `connectDatabase` (connect.ts) over the file state, same shape as
`connectAuth` with the database rewrite. -/
def connectDatabase (fs : EnvFS) (dbUrl : List Char)
    (probeOk continueAnyway : Bool) : EnvFS :=
  let fs1 := backupIfExists fs
  if probeOk = false ∧ continueAnyway = false then fs1
  else { fs1 with
    env := some (connectDatabaseTransform (fs1.env.getD []) dbUrl) }

/-- `updateEnvFile` as a file operation: read the file if it exists (else
start from empty), apply the upserts, and write the result back.  No backup
of any kind is taken. -/
def updateEnvFileOp (fs : EnvFS) (updates : List (List Char × List Char)) :
    EnvFS :=
  { env := some (updateEnvFile (fs.env.getD []) updates),
    backups := fs.backups }

/-- C6 counterexample: the upsert used during setup and credential refresh
(`updateEnvFile`) rewrites an existing `.env.local` to different content
while creating no backup at all — the claimed snapshot-before-mutate
invariant fails for it. -/
theorem updateEnvFileOp_no_backup_cex :
    (updateEnvFileOp ⟨some "DATABASE_URL=a\n".data, []⟩
        [("DATABASE_URL".data, "b".data)]).backups = [] ∧
    (updateEnvFileOp ⟨some "DATABASE_URL=a\n".data, []⟩
        [("DATABASE_URL".data, "b".data)]).env ≠
      some "DATABASE_URL=a\n".data := by
  constructor
  · rfl
  · decide

/-- C6 amended: the promote-to-production operations (`connectAuth` and
`connectDatabase`) always snapshot the pre-operation content to a timestamped
backup before any rewrite when the file exists, but the plain upsert
(`updateEnvFile`) used during setup and credential refresh rewrites the file
without ever creating a backup. -/
theorem backup_before_mutation_amended :
    (∀ (fs : EnvFS) (url key cont : List Char) (p c : Bool),
        fs.env = some cont →
          (connectAuth fs url key p c).backups = fs.backups ++ [cont]) ∧
    (∀ (fs : EnvFS) (dbUrl cont : List Char) (p c : Bool),
        fs.env = some cont →
          (connectDatabase fs dbUrl p c).backups = fs.backups ++ [cont]) ∧
    (∀ (fs : EnvFS) (updates : List (List Char × List Char)),
        (updateEnvFileOp fs updates).backups = fs.backups) := by
  refine ⟨?_, ?_, fun fs updates => rfl⟩
  · intro fs url key cont p c henv
    unfold connectAuth backupIfExists
    rw [henv]
    by_cases h : p = false ∧ c = false
    · rw [if_pos h]
    · rw [if_neg h]
  · intro fs dbUrl cont p c henv
    unfold connectDatabase backupIfExists
    rw [henv]
    by_cases h : p = false ∧ c = false
    · rw [if_pos h]
    · rw [if_neg h]

/-- Witness for `backup_before_mutation_amended`: a successful
`connectAuth` run over an existing file records the prior content as a
backup. -/
theorem backup_before_mutation_witness :
    (EnvFS.mk (some "X=1\n".data) []).env = some "X=1\n".data ∧
    (connectAuth (EnvFS.mk (some "X=1\n".data) []) "https://x.example".data
        "anon0123456789anon0123".data true true).backups =
      [] ++ ["X=1\n".data] :=
  ⟨rfl, backup_before_mutation_amended.1 _ _ _ _ _ _ rfl⟩

/-- C10: when the connectivity test fails (`probeOk = false`) and the user
declines the continue-anyway confirmation (`continueAnyway = false`), both
promote operations return without writing — the env file content is exactly
the pre-call content — even though, when the file existed, a timestamped
backup of it was already created at the start of the operation. -/
theorem connect_cancel_no_write (fs : EnvFS) (url key dbUrl : List Char) :
    (connectAuth fs url key false false).env = fs.env ∧
    (connectDatabase fs dbUrl false false).env = fs.env ∧
    (∀ cont, fs.env = some cont →
      (connectAuth fs url key false false).backups = fs.backups ++ [cont] ∧
      (connectDatabase fs dbUrl false false).backups = fs.backups ++ [cont]) := by
  refine ⟨?_, ?_, ?_⟩
  · unfold connectAuth backupIfExists
    rw [if_pos ⟨rfl, rfl⟩]
    cases h : fs.env <;> simp [h]
  · unfold connectDatabase backupIfExists
    rw [if_pos ⟨rfl, rfl⟩]
    cases h : fs.env <;> simp [h]
  · intro cont henv
    exact ⟨backup_before_mutation_amended.1 fs url key cont false false henv,
      backup_before_mutation_amended.2.1 fs dbUrl cont false false henv⟩

/-- Witness for `connect_cancel_no_write`: a declined `connectAuth` and
`connectDatabase` on a concrete existing file leave its content untouched
and record the backup. -/
theorem connect_cancel_no_write_witness :
    (connectAuth (EnvFS.mk (some "K=V\n".data) []) "https://y".data
        "anonanonanonanonanonanon".data false false).env =
      some "K=V\n".data ∧
    (EnvFS.mk (some "K=V\n".data) []).env = some "K=V\n".data ∧
    (connectAuth (EnvFS.mk (some "K=V\n".data) []) "https://y".data
        "anonanonanonanonanonanon".data false false).backups =
      [] ++ ["K=V\n".data] :=
  ⟨(connect_cancel_no_write (EnvFS.mk (some "K=V\n".data) []) "https://y".data
      "anonanonanonanonanonanon".data "postgresql://u".data).1,
    rfl,
    ((connect_cancel_no_write (EnvFS.mk (some "K=V\n".data) []) "https://y".data
        "anonanonanonanonanonanon".data "postgresql://u".data).2.2
      "K=V\n".data rfl).1⟩
